import Mathlib

set_option maxHeartbeats 1600000

/-!
Shallow embedding of the grammar engine of the `toy-bnf` repository
(`src/engine.rs`), together with proofs about its build-time validation,
its greedy matcher and its random generator.

Rust strings are modelled at the byte level: a text and a terminal's
`content` are `List Nat` (the UTF-8 bytes), lengths and spans are byte
counts/offsets, exactly as in the Rust code (`str::len`, `starts_with`,
slicing).  Rule names are only ever compared for equality, so they stay
`String`.  The recursive matcher, generator and cycle check receive an
explicit `fuel` bound (the Rust code recurses on the call stack); running
out of fuel is reported by a dedicated result constructor and never
conflated with a result of the program.  Randomness (`thread_rng`) is
modelled by an injected stream of pre-drawn values: `gen_range(0..n)`
consumes one stream element and reduces it modulo `n`, and panics when
`n = 0`, as the Rust API does.  Rust panics (index out of range, string
slicing off a char boundary) are modelled by a `panicked` result.
-/

namespace ToyBnf

/-- Atoms, from `ast.rs`: a literal byte sequence (`Terminal`) or a
reference to another rule by name (`NonTerminal`). -/
inductive Atom where
  | Terminal (content : List Nat)
  | NonTerminal (name : String)
deriving DecidableEq

/-- Variants (`RuleVariant` in `ast.rs`): an ordered sequence of atoms. -/
structure RuleVariant where
  items : List Atom
deriving DecidableEq

/-- Rules, from `ast.rs`: a name plus the ordered list of variants. -/
structure Rule where
  name : String
  variants : List RuleVariant
deriving DecidableEq

/-- The `Engine` of `engine.rs`: the validated rule set (the `BTreeMap`
keyed by rule name is modelled as the rule list, looked up by name) and
the debug flag. -/
structure Engine where
  tree : List Rule
  debug : Bool
deriving DecidableEq

/-- Lookup in the engine's `tree` (`BTreeMap::get`); names are unique
after validation, so first-match lookup agrees with the map. -/
def Engine.lookup (eng : Engine) (name : String) : Option Rule :=
  eng.tree.find? (fun r => r.name == name)

/-- Result of `gen_random_variant`: the produced bytes plus the rest of
the random stream, a Rust panic, or fuel exhaustion. -/
inductive GenRes where
  | ok (s : List Nat) (rng : List Nat)
  | panicked
  | fuelOut
deriving DecidableEq

/-- The atom loop of `Engine::gen_random_variant`: `recur` is the
recursive call used for `NonTerminal` atoms (`self.tree[name]` panics
when the name is absent), `rng` the stream of pre-drawn random values,
`acc` the string built so far (`res`). -/
def genItems (eng : Engine) (recur : Rule → List Nat → GenRes) :
    List Atom → List Nat → List Nat → GenRes
  | [], rng, acc => .ok acc rng
  | Atom.Terminal c :: rest, rng, acc => genItems eng recur rest rng (acc ++ c)
  | Atom.NonTerminal n :: rest, rng, acc =>
    match eng.lookup n with
    | none => .panicked
    | some r =>
      match recur r rng with
      | .ok s rng' => genItems eng recur rest rng' (acc ++ s)
      | .panicked => .panicked
      | .fuelOut => .fuelOut

/-- Embeds `Engine::gen_random_variant`: draw one variant index
(`rng.gen_range(0..len)`, modelled by the stream head reduced modulo
`len`; it panics when `len = 0`), then expand the chosen variant's atoms
in order. -/
def genRandomVariant (eng : Engine) : Nat → Rule → List Nat → GenRes
  | 0, _, _ => .fuelOut
  | fuel + 1, rule, rng =>
    if rule.variants.length = 0 then .panicked
    else
      genItems eng (fun r g => genRandomVariant eng fuel r g)
        (rule.variants.getD (rng.headD 0 % rule.variants.length) ⟨[]⟩).items
        rng.tail []

/-- Result of `Engine::gen_random`. -/
inductive GenOut where
  | ok (s : List Nat)
  | badRule (name : String)
  | panicked
  | fuelOut
deriving DecidableEq

/-- Embeds `Engine::gen_random`: look the rule up, failing with `BadRule`, then
generate. -/
def genRandom (eng : Engine) (fuel : Nat) (rule : String) (rng : List Nat) : GenOut :=
  match eng.lookup rule with
  | none => .badRule rule
  | some r =>
    match genRandomVariant eng fuel r rng with
    | .ok s _ => .ok s
    | .panicked => .panicked
    | .fuelOut => .fuelOut

/-- Result of `Engine::match_against`: `Ok(processed)` together with the
spans pushed onto the output vector, `Err(())`, a Rust panic, or fuel
exhaustion. -/
inductive MRes where
  | ok (proc : Nat) (spans : List (Nat × Nat))
  | fail
  | panicked
  | fuelOut
deriving DecidableEq

/-- Rust's `str::is_char_boundary` at byte index `i` of `d`: true at the ends
and at any byte that is not a UTF-8 continuation byte. -/
def isCharBoundary (d : List Nat) (i : Nat) : Bool :=
  i == 0 ||
    (match d.get? i with
     | some b => decide (b < 0x80 ∨ 0xC0 ≤ b)
     | none => i == d.length)

/-- The atom loop of one variant in `Engine::match_against`.  `recur`
performs the recursive call for a `NonTerminal` (including the
`self.tree[name]` lookup, which panics when absent); `dbg` is the
engine's debug flag: on a terminal mismatch the debug print slices
`&data[..data.len().min(5)]`, which panics off a char boundary.  `data`
is the remaining input, `offset` the rule's base offset, `proc` the
bytes consumed so far by this variant, `sub` the spans collected so far
(the `sub` vector). -/
def runItems (recur : String → List Nat → Nat → MRes) (dbg : Bool) :
    List Atom → List Nat → Nat → Nat → List (Nat × Nat) → MRes
  | [], _, _, proc, sub => .ok proc sub
  | Atom.Terminal c :: rest, data, offset, proc, sub =>
    if c.isPrefixOf data then
      runItems recur dbg rest (data.drop c.length) offset (proc + c.length) sub
    else if dbg && !(isCharBoundary data (Nat.min data.length 5)) then .panicked
    else .fail
  | Atom.NonTerminal n :: rest, data, offset, proc, sub =>
    match recur n data (offset + proc) with
    | .ok processed childSpans =>
      runItems recur dbg rest (data.drop processed) offset (proc + processed)
        (sub ++ childSpans)
    | .fail => .fail
    | .panicked => .panicked
    | .fuelOut => .fuelOut

/-- The variant loop (`'varloop`) of `Engine::match_against`: try each
variant in order with a cleared `sub` vector; on the first success push
the rule's own span when its name is watched, then the children's spans,
and return; try the next variant on failure. -/
def matchVariants (recur : String → List Nat → Nat → MRes) (dbg : Bool)
    (ruleName : String) (toWatch : List String) (data : List Nat) (offset : Nat) :
    List RuleVariant → MRes
  | [] => .fail
  | v :: vs =>
    match runItems recur dbg v.items data offset 0 [] with
    | .ok proc sub =>
      .ok proc
        ((if toWatch.contains ruleName then [(offset, offset + proc)] else []) ++ sub)
    | .fail => matchVariants recur dbg ruleName toWatch data offset vs
    | .panicked => .panicked
    | .fuelOut => .fuelOut

/-- Embeds `Engine::match_against`.  When debug is on, the entry `eprintln!`
slices `&data[..data.len().min(5)]` and therefore panics when that index
is not a char boundary. -/
def matchAgainst (eng : Engine) : Nat → Rule → List String → List Nat → Nat → MRes
  | 0, _, _, _, _ => .fuelOut
  | fuel + 1, rule, toWatch, data, offset =>
    if eng.debug && !(isCharBoundary data (Nat.min data.length 5)) then .panicked
    else
      matchVariants
        (fun n d off =>
          match eng.lookup n with
          | none => .panicked
          | some r => matchAgainst eng fuel r toWatch d off)
        eng.debug rule.name toWatch data offset rule.variants

/-- Result of `Engine::match_rule`. -/
inductive MatchOut where
  | ok (spans : List (Nat × Nat))
  | badInitialRule (name : String)
  | badWatchRule (name : String)
  | noMatches
  | panicked
  | fuelOut
deriving DecidableEq

/-- The watch-set validation loop of `Engine::match_rule`: the first
name not present in the tree, if any. -/
def findBadWatch (eng : Engine) : List String → Option String
  | [] => none
  | w :: rest => if (eng.lookup w).isSome then findBadWatch eng rest else some w

/-- Embeds `Engine::match_rule`: validate the initial rule, then the watch set,
then match anchored at offset 0; a match failure becomes `NoMatches`,
and the consumed length is discarded. -/
def matchRule (eng : Engine) (fuel : Nat) (initial : String) (toWatch : List String)
    (data : List Nat) : MatchOut :=
  match eng.lookup initial with
  | none => .badInitialRule initial
  | some r =>
    match findBadWatch eng toWatch with
    | some w => .badWatchRule w
    | none =>
      match matchAgainst eng fuel r toWatch data 0 with
      | .ok _ spans => .ok spans
      | .fail => .noMatches
      | .panicked => .panicked
      | .fuelOut => .fuelOut

/-- Build errors (`BuildError` in `engine.rs`). -/
inductive BuildError where
  | duplicatedNames (names : List String)
  | inexistentNonTerminals (rule : String) (missing : String)
  | infinityRecursion (rule : String)
deriving DecidableEq

/-- Result of `Engine::build`. -/
inductive BuildOut where
  | ok (eng : Engine)
  | err (e : BuildError)
  | fuelOut
deriving DecidableEq

/-- The duplicate-name scan of `Engine::build`: `names` is the set of
names seen so far (`BTreeSet`), `dup` the duplicates pushed so far;
returns both after the whole scan. -/
def dupScan : List Rule → List String → List String → List String × List String
  | [], names, dup => (names, dup)
  | r :: rest, names, dup =>
    if names.contains r.name then dupScan rest names (dup ++ [r.name])
    else dupScan rest (names ++ [r.name]) dup

/-- Atom loop of the undefined-non-terminal check: first `NonTerminal`
whose name is not among `names`, reported with the defining rule's name. -/
def findInexItems (names : List String) (rn : String) : List Atom → Option (String × String)
  | [] => none
  | Atom.Terminal _ :: rest => findInexItems names rn rest
  | Atom.NonTerminal n :: rest =>
    if names.contains n then findInexItems names rn rest else some (rn, n)

/-- Variant loop of the undefined-non-terminal check. -/
def findInexVariants (names : List String) (rn : String) :
    List RuleVariant → Option (String × String)
  | [] => none
  | v :: vs =>
    match findInexItems names rn v.items with
    | some p => some p
    | none => findInexVariants names rn vs

/-- Rule loop of the undefined-non-terminal check of `Engine::build`. -/
def findInexistent (names : List String) : List Rule → Option (String × String)
  | [] => none
  | r :: rest =>
    match findInexVariants names r.name r.variants with
    | some p => some p
    | none => findInexistent names rest

/-- The inner loop of `Engine::check_recursion` over the enumerated rule
list, looking for the rules named by the leading atom: returns the found
flag and the updated `in_stack`; `recur` is the recursive call. -/
def crTargets (recur : Nat → Rule → List Bool → Option (Bool × List Bool))
    (name : String) : List (Nat × Rule) → List Bool → Option (Bool × List Bool)
  | [], st => some (false, st)
  | (cidx, crule) :: rest, st =>
    if crule.name == name then
      if st.getD cidx false then some (true, st)
      else
        match recur cidx crule st with
        | none => none
        | some (true, st') => some (true, st')
        | some (false, st') => crTargets recur name rest st'
    else crTargets recur name rest st

/-- The variant loop of `Engine::check_recursion`: only a variant whose
first atom is a `NonTerminal` is followed. -/
def crVariants (recur : Nat → Rule → List Bool → Option (Bool × List Bool))
    (rulesEnum : List (Nat × Rule)) :
    List RuleVariant → List Bool → Option (Bool × List Bool)
  | [], st => some (false, st)
  | v :: vs, st =>
    match v.items with
    | Atom.NonTerminal n :: _ =>
      (match crTargets recur n rulesEnum st with
       | none => none
       | some (true, st') => some (true, st')
       | some (false, st') => crVariants recur rulesEnum vs st')
    | _ => crVariants recur rulesEnum vs st

/-- Embeds `Engine::check_recursion`: mark this rule on the DFS stack, follow
the leading atom of each variant, and unmark before returning `false`.
`none` models fuel exhaustion (the Rust code recurses on the call
stack). -/
def checkRecursion (rulesEnum : List (Nat × Rule)) :
    Nat → Nat → Rule → List Bool → Option (Bool × List Bool)
  | 0, _, _, _ => none
  | fuel + 1, idx, rule, inStack =>
    match crVariants (fun i r st => checkRecursion rulesEnum fuel i r st) rulesEnum
        rule.variants (inStack.set idx true) with
    | none => none
    | some (true, st') => some (true, st')
    | some (false, st') => some (false, st'.set idx false)

/-- The top-level recursion-check loop of `Engine::build`, threading the
shared `in_stack` vector; returns the name of the first offending rule. -/
def recLoop (rulesEnum : List (Nat × Rule)) (fuel : Nat) :
    List (Nat × Rule) → List Bool → Option (Option String)
  | [], _ => some none
  | (idx, rule) :: rest, st =>
    match checkRecursion rulesEnum fuel idx rule st with
    | none => none
    | some (true, _) => some (some rule.name)
    | some (false, st') => recLoop rulesEnum fuel rest st'

/-- Embeds `Engine::build`: duplicate-name check, undefined-non-terminal check,
left-recursion check, in that order, then wrap the rules. -/
def build (ast : List Rule) (debug : Bool) (fuel : Nat) : BuildOut :=
  if (dupScan ast [] []).2 ≠ [] then .err (.duplicatedNames (dupScan ast [] []).2)
  else
    match findInexistent (dupScan ast [] []).1 ast with
    | some p => .err (.inexistentNonTerminals p.1 p.2)
    | none =>
      match recLoop ast.enum fuel ast.enum (List.replicate ast.length false) with
      | none => .fuelOut
      | some (some name) => .err (.infinityRecursion name)
      | some none => .ok ⟨ast, debug⟩

/-- The rule name referenced by an atom, if any. -/
def atomRef : Atom → Option String
  | Atom.Terminal _ => none
  | Atom.NonTerminal n => some n

/-- All rule names referenced anywhere in a rule's variants. -/
def ruleRefs (r : Rule) : List String :=
  r.variants.flatMap (fun v => v.items.filterMap atomRef)

/-- Reachability: `Reach eng a b` holds when rule name `b` is referenced, directly or through a
chain of rules, from the rule named `a` (following `Engine.lookup`). -/
inductive Reach (eng : Engine) : String → String → Prop
  | step {a b : String} {r : Rule} : eng.lookup a = some r → b ∈ ruleRefs r →
      Reach eng a b
  | trans {a b c : String} : Reach eng a b → Reach eng b c → Reach eng a c

/-- The undefined non-terminal references of a rule set, relative to a
set of declared `names`, in scan order (rules, then variants, then
atoms), each paired with its defining rule's name. -/
def badRefs (names : List String) (ast : List Rule) : List (String × String) :=
  ast.flatMap (fun r =>
    r.variants.flatMap (fun v =>
      v.items.filterMap (fun a =>
        match a with
        | Atom.Terminal _ => none
        | Atom.NonTerminal n =>
          if names.contains n then none else some (r.name, n))))

/-- Modelled from the spec: the undefined non-terminals of a rule set in
the spec's scan order (rules, then variants, then atoms), each paired
with its defining rule's name; declared names are the rules' names. -/
def badRefList (ast : List Rule) : List (String × String) :=
  badRefs (ast.map Rule.name) ast

/-- A rule set in which the name `a` is declared twice. -/
def gDup : List Rule := [⟨"a", [⟨[.Terminal [1]]⟩]⟩, ⟨"a", [⟨[.Terminal [2]]⟩]⟩]

/-- A rule set referencing the undeclared non-terminal `zz`. -/
def gInex : List Rule := [⟨"a", [⟨[.NonTerminal "zz"]⟩]⟩]

/-- Grammar `<x> ::= "a" | "ab"` (bytes of `"a"`, `"ab"`). -/
def gAB : List Rule := [⟨"x", [⟨[.Terminal [97]]⟩, ⟨[.Terminal [97, 98]]⟩]⟩]

/-- The engine `build` produces for `gAB` with debug off. -/
def eAB : Engine := ⟨gAB, false⟩

/-- Grammar `<s> ::= <a> <b>`, `<a> ::= "1"`, `<b> ::= "2"`. -/
def gSabc : List Rule :=
  [⟨"s", [⟨[.NonTerminal "a", .NonTerminal "b"]⟩]⟩,
   ⟨"a", [⟨[.Terminal [49]]⟩]⟩,
   ⟨"b", [⟨[.Terminal [50]]⟩]⟩]

/-- The engine `build` produces for `gSabc` with debug off. -/
def eSabc : Engine := ⟨gSabc, false⟩

/-- Grammar `<x> ::= "a"`. -/
def gA : List Rule := [⟨"x", [⟨[.Terminal [97]]⟩]⟩]

/-- The engine `build` produces for `gA` with debug off. -/
def eA : Engine := ⟨gA, false⟩

/-- The engine `build` produces for `gA` with debug on. -/
def eAdbg : Engine := ⟨gA, true⟩

/-- Grammar `<a> ::= <a>` (left recursion in leading position). -/
def gRecLead : List Rule := [⟨"a", [⟨[.NonTerminal "a"]⟩]⟩]

/-- Grammar `<a> ::= "x" <a>` (recursion not in leading position). -/
def gRecTail : List Rule := [⟨"a", [⟨[.Terminal [120], .NonTerminal "a"]⟩]⟩]

/-- A rule set whose single rule has an empty variant list. -/
def gNoVariants : List Rule := [⟨"a", []⟩]

/-- Grammar `<x> ::= "ab"`: a single rule with a single variant. -/
def gSingle : List Rule := [⟨"x", [⟨[.Terminal [97, 98]]⟩]⟩]

/-- The engine `build` produces for `gSingle` with debug off. -/
def eSingle : Engine := ⟨gSingle, false⟩

theorem lookup_name {eng : Engine} {n : String} {r : Rule}
    (h : eng.lookup n = some r) : r.name = n := by
  have := List.find?_some h
  simpa using this

theorem lookup_mem {eng : Engine} {n : String} {r : Rule}
    (h : eng.lookup n = some r) : r ∈ eng.tree :=
  List.mem_of_find?_eq_some h

theorem build_ok_inv {ast : List Rule} {debug : Bool} {fuel : Nat} {eng : Engine}
    (h : build ast debug fuel = .ok eng) : eng = ⟨ast, debug⟩ := by
  unfold build at h
  split at h
  · exact absurd h (by simp)
  · split at h
    · exact absurd h (by simp)
    · split at h
      · exact absurd h (by simp)
      · exact absurd h (by simp)
      · exact (BuildOut.ok.injEq _ _).mp h.symm ▸ rfl

/-- C5: the left-recursion check follows only the leading atom of each
variant: `<a> ::= <a>` is rejected with `InfinityRecursion("a")`, while
`<a> ::= "x" <a>` builds successfully (for every fuel bound). -/
theorem c5_leading_atom_recursion_check :
    ∀ fuel : Nat,
      build gRecLead false (fuel + 1) = .err (.infinityRecursion "a") ∧
      build gRecTail false (fuel + 1) = .ok ⟨gRecTail, false⟩ :=
  fun _ => ⟨rfl, rfl⟩

/-- C10: `build` accepts a rule with zero variants, and `gen_random` on
that rule panics (the variant index is drawn from the empty range
`0..0`) instead of returning a `GenerateError`, for every fuel bound and
random stream. -/
theorem c10_empty_variants_build_then_gen_panics :
    ∀ (fuel : Nat) (rng : List Nat),
      build gNoVariants false (fuel + 1) = .ok ⟨gNoVariants, false⟩ ∧
      genRandom ⟨gNoVariants, false⟩ (fuel + 1) "a" rng = .panicked :=
  fun _ _ => ⟨rfl, rfl⟩

/-- C9 fails on the code: with grammar `<x> ::= "a"` and the text
`"ααα"` (bytes `CE B1 CE B1 CE B1`), the debug engine panics (the debug
print slices `&data[..5]`, and byte 5 is not a char boundary) while the
non-debug engine returns `NoMatches`. -/
theorem c9_debug_changes_result_on_multibyte_text :
    build gA true 10 = .ok eAdbg ∧
    build gA false 10 = .ok eA ∧
    matchRule eAdbg 10 "x" ["x"] [206, 177, 206, 177, 206, 177] = .panicked ∧
    matchRule eA 10 "x" ["x"] [206, 177, 206, 177, 206, 177] = .noMatches := by
  decide

/-- C2: the first variant whose atoms all succeed determines the rule's
match — once `runItems` succeeds on the head variant, the later variants
`vs` do not influence the result — and for `<x> ::= "a" | "ab"` on text
`"ab"` the match is the single span `(0, 1)`. -/
theorem c2_greedy_first_variant :
    (∀ (recur : String → List Nat → Nat → MRes) (dbg : Bool) (rn : String)
       (tw : List String) (data : List Nat) (off : Nat) (v : RuleVariant)
       (vs : List RuleVariant) (proc : Nat) (sub : List (Nat × Nat)),
       runItems recur dbg v.items data off 0 [] = .ok proc sub →
       matchVariants recur dbg rn tw data off (v :: vs) =
         .ok proc ((if tw.contains rn then [(off, off + proc)] else []) ++ sub)) ∧
    build gAB false 10 = .ok eAB ∧
    matchRule eAB 10 "x" ["x"] [97, 98] = .ok [(0, 1)] := by
  refine ⟨?_, by decide, by decide⟩
  intro recur dbg rn tw data off v vs proc sub h
  simp [matchVariants, h]

theorem c2_greedy_first_variant_witness :
    runItems (fun _ _ _ => MRes.fail) false [Atom.Terminal [97]] [97, 98] 0 0 [] =
      .ok 1 [] ∧
    matchVariants (fun _ _ _ => MRes.fail) false "x" ["x"] [97, 98] 0
      [⟨[Atom.Terminal [97]]⟩, ⟨[Atom.Terminal [97, 98]]⟩] = .ok 1 [(0, 1)] := by
  refine ⟨by decide, ?_⟩
  have h := c2_greedy_first_variant.1 (fun _ _ _ => MRes.fail) false "x" ["x"]
    [97, 98] 0 ⟨[Atom.Terminal [97]]⟩ [⟨[Atom.Terminal [97, 98]]⟩] 1 [] (by decide)
  exact h.trans (by decide)

/-- C4: matching is anchored at offset 0: whenever the initial rule is
present, the watch set is valid, and `match_against` fails at offset 0,
`match_rule` returns `NoMatches` (no retry at a later offset); in
particular `<x> ::= "a"` against `"ba"` gives `NoMatches`. -/
theorem c4_matching_anchored_at_offset_zero :
    (∀ (eng : Engine) (fuel : Nat) (initial : String) (tw : List String)
       (data : List Nat) (r : Rule),
       eng.lookup initial = some r →
       findBadWatch eng tw = none →
       matchAgainst eng fuel r tw data 0 = .fail →
       matchRule eng fuel initial tw data = .noMatches) ∧
    matchRule eA 10 "x" ["x"] [98, 97] = .noMatches := by
  refine ⟨?_, by decide⟩
  intro eng fuel initial tw data r h1 h2 h3
  simp [matchRule, h1, h2, h3]

theorem c4_matching_anchored_at_offset_zero_witness :
    matchRule eA 3 "x" ["x"] [98, 97] = .noMatches :=
  c4_matching_anchored_at_offset_zero.1 eA 3 "x" ["x"] [98, 97]
    ⟨"x", [⟨[.Terminal [97]]⟩]⟩ (by decide) (by decide) (by decide)

theorem findBadWatch_append {eng : Engine} {name : String}
    (pre post : List String) (h : eng.lookup name = none)
    (hpre : ∀ w ∈ pre, (eng.lookup w).isSome) :
    findBadWatch eng (pre ++ name :: post) = some name := by
  induction pre with
  | nil => simp [findBadWatch, h]
  | cons w ws ih =>
    have hw : (eng.lookup w).isSome := hpre w (by simp)
    simp only [List.cons_append, findBadWatch, hw, if_pos]
    exact ih (fun x hx => hpre x (by simp [hx]))

/-- C8: for a rule name absent from the engine's grammar, `gen_random`
fails with `BadRule`, `match_rule` with it as initial rule fails with
`BadInitialRule` (whatever the watch set, so the initial check runs
first), and `match_rule` with a valid initial rule and the absent name
in the watch set fails with `BadWatchRule`; none of these panics. -/
theorem c8_absent_rule_name_errors :
    ∀ (eng : Engine) (fuel : Nat) (name : String) (rng : List Nat)
      (tw pre post : List String) (data : List Nat) (initial : String) (r : Rule),
      eng.lookup name = none →
      genRandom eng fuel name rng = .badRule name ∧
      matchRule eng fuel name tw data = .badInitialRule name ∧
      (eng.lookup initial = some r → (∀ w ∈ pre, (eng.lookup w).isSome) →
        matchRule eng fuel initial (pre ++ name :: post) data = .badWatchRule name) := by
  intro eng fuel name rng tw pre post data initial r h
  refine ⟨by simp [genRandom, h], by simp [matchRule, h], ?_⟩
  intro hr hpre
  simp [matchRule, hr, findBadWatch_append pre post h hpre]

theorem c8_absent_rule_name_errors_witness :
    genRandom eA 3 "zz" [] = .badRule "zz" ∧
    matchRule eA 3 "zz" ["x"] [97] = .badInitialRule "zz" ∧
    matchRule eA 3 "x" ["x", "zz"] [97] = .badWatchRule "zz" := by
  have h := c8_absent_rule_name_errors eA 3 "zz" [] ["x"] ["x"] [] [97] "x"
    ⟨"x", [⟨[.Terminal [97]]⟩]⟩ (by decide)
  exact ⟨h.1, h.2.1, h.2.2 (by decide) (by decide)⟩

/-- C3: when a matched rule's name is watched, its own span heads the
span list produced for it (children's spans follow it); and for
`<s> ::= <a> <b>`, `<a> ::= "1"`, `<b> ::= "2"`, watching all three
rules against `"12"` gives exactly `[(0,2), (0,1), (1,2)]` — parent
first, then children left to right. -/
theorem c3_watch_capture_parent_first :
    (∀ (recur : String → List Nat → Nat → MRes) (dbg : Bool) (rn : String)
       (tw : List String) (data : List Nat) (off : Nat) (vars : List RuleVariant)
       (proc : Nat) (spans : List (Nat × Nat)),
       matchVariants recur dbg rn tw data off vars = .ok proc spans →
       tw.contains rn = true →
       ∃ rest, spans = (off, off + proc) :: rest) ∧
    build gSabc false 10 = .ok eSabc ∧
    matchRule eSabc 10 "s" ["s", "a", "b"] [49, 50] = .ok [(0, 2), (0, 1), (1, 2)] := by
  refine ⟨?_, by decide, by decide⟩
  intro recur dbg rn tw data off vars proc spans h hc
  induction vars with
  | nil => simp [matchVariants] at h
  | cons v vs ih =>
    rw [matchVariants] at h
    cases hr : runItems recur dbg v.items data off 0 [] <;> rw [hr] at h
    case ok p s =>
      injection h with h1 h2
      subst h1
      exact ⟨s, by rw [← h2, hc]; simp⟩
    case fail => exact ih h
    case panicked => exact absurd h (by simp)
    case fuelOut => exact absurd h (by simp)

theorem c3_watch_capture_parent_first_witness :
    matchVariants (fun _ _ _ => MRes.fail) false "x" ["x"] [97] 0
      [⟨[Atom.Terminal [97]]⟩] = .ok 1 [(0, 1)] ∧
    ∃ rest, [((0 : Nat), (1 : Nat))] = (0, 0 + 1) :: rest := by
  refine ⟨by decide, ?_⟩
  exact c3_watch_capture_parent_first.1 (fun _ _ _ => MRes.fail) false "x" ["x"]
    [97] 0 [⟨[Atom.Terminal [97]]⟩] 1 [(0, 1)] (by decide) (by decide)

theorem dupScan_fst_mem :
    ∀ (ast : List Rule) (names dup : List String) (m : String),
      m ∈ (dupScan ast names dup).1 ↔ m ∈ names ∨ m ∈ ast.map Rule.name := by
  intro ast
  induction ast with
  | nil => intro names dup m; simp [dupScan]
  | cons r rest ih =>
    intro names dup m
    by_cases hc : names.contains r.name = true
    · have hm : r.name ∈ names := List.elem_iff.mp hc
      rw [dupScan, if_pos hc, ih]
      simp only [List.map_cons, List.mem_cons]
      constructor
      · tauto
      · rintro (h | h | h)
        · tauto
        · subst h; tauto
        · tauto
    · rw [dupScan, if_neg hc, ih]
      simp only [List.map_cons, List.mem_cons, List.mem_append, List.mem_singleton]
      tauto

theorem dupScan_snd_mem :
    ∀ (ast : List Rule) (names dup : List String) (m : String),
      m ∈ (dupScan ast names dup).2 ↔
        m ∈ dup ∨ (if m ∈ names then 1 else 2) ≤ (ast.map Rule.name).count m := by
  intro ast
  induction ast with
  | nil =>
    intro names dup m
    by_cases hm : m ∈ names <;> simp [dupScan, hm]
  | cons r rest ih =>
    intro names dup m
    have hcc : (List.map Rule.name (r :: rest)).count m =
        (List.map Rule.name rest).count m + if r.name = m then 1 else 0 := by
      simp [List.count_cons, beq_iff_eq]
    by_cases hc : names.contains r.name = true
    · have hmemn : r.name ∈ names := List.elem_iff.mp hc
      rw [dupScan, if_pos hc, ih, hcc]
      by_cases hmr : m = r.name
      · subst hmr
        rw [if_pos rfl]
        constructor
        · intro _
          exact Or.inr (by rw [if_pos hmemn]; omega)
        · intro _
          exact Or.inl (List.mem_append.mpr (Or.inr (List.mem_singleton.mpr rfl)))
      · have h4 : (if r.name = m then (1 : Nat) else 0) = 0 :=
          if_neg (fun h => hmr h.symm)
        rw [h4, Nat.add_zero,
          show (m ∈ dup ++ [r.name]) = (m ∈ dup) from propext (by simp [hmr])]
    · have hmemn : r.name ∉ names := fun h => hc (List.elem_iff.mpr h)
      rw [dupScan, if_neg hc, ih, hcc]
      by_cases hmr : m = r.name
      · subst hmr
        rw [if_pos rfl, if_neg hmemn]
        have h2 : r.name ∈ names ++ [r.name] :=
          List.mem_append.mpr (Or.inr (by simp))
        rw [if_pos h2]
        exact or_congr_right (by omega)
      · have h4 : (if r.name = m then (1 : Nat) else 0) = 0 :=
          if_neg (fun h => hmr h.symm)
        rw [h4, Nat.add_zero]
        simp only [show (m ∈ names ++ [r.name]) = (m ∈ names) from
          propext (by simp [hmr])]

/-- C6: a rule set with a duplicated name fails with `DuplicatedNames`,
whose list — as a set — is exactly the names occurring more than once;
since this happens whatever else is wrong with the rule set, the check
runs before the undefined-non-terminal and left-recursion checks. -/
theorem c6_all_duplicates_reported :
    ∀ (ast : List Rule) (debug : Bool) (fuel : Nat) (n : String),
      2 ≤ (ast.map Rule.name).count n →
      ∃ dup, build ast debug fuel = .err (.duplicatedNames dup) ∧
        ∀ m, m ∈ dup ↔ 2 ≤ (ast.map Rule.name).count m := by
  intro ast debug fuel n hn
  have hmem : ∀ m, m ∈ (dupScan ast [] []).2 ↔ 2 ≤ (ast.map Rule.name).count m := by
    intro m
    rw [dupScan_snd_mem]
    simp
  have hne : (dupScan ast [] []).2 ≠ [] := by
    intro h0
    have := (hmem n).mpr hn
    rw [h0] at this
    simp at this
  refine ⟨(dupScan ast [] []).2, ?_, hmem⟩
  rw [build, if_pos hne]

theorem c6_all_duplicates_reported_witness :
    ∃ dup, build gDup false 5 = .err (.duplicatedNames dup) ∧
      ∀ m, m ∈ dup ↔ 2 ≤ (gDup.map Rule.name).count m :=
  c6_all_duplicates_reported gDup false 5 "a" (by decide)

theorem findInexItems_eq (names : List String) (rn : String) :
    ∀ items : List Atom,
      findInexItems names rn items =
        (items.filterMap (fun a =>
          match a with
          | Atom.Terminal _ => none
          | Atom.NonTerminal n =>
            if names.contains n then none else some (rn, n))).head? := by
  intro items
  induction items with
  | nil => rfl
  | cons a rest ih =>
    cases a with
    | Terminal c =>
      simpa [findInexItems, List.filterMap_head?, List.findSome?_cons] using ih
    | NonTerminal n =>
      by_cases hcn : n ∈ names
      · simpa [findInexItems, hcn, List.filterMap_head?, List.findSome?_cons] using ih
      · simp [findInexItems, hcn, List.filterMap_head?, List.findSome?_cons]

theorem findInexVariants_eq (names : List String) (rn : String) :
    ∀ variants : List RuleVariant,
      findInexVariants names rn variants =
        (variants.flatMap (fun v => v.items.filterMap (fun a =>
          match a with
          | Atom.Terminal _ => none
          | Atom.NonTerminal n =>
            if names.contains n then none else some (rn, n)))).head? := by
  intro variants
  induction variants with
  | nil => rfl
  | cons v vs ih =>
    rw [findInexVariants, findInexItems_eq names rn v.items, ih, List.flatMap_cons]
    cases hfm : v.items.filterMap (fun a =>
        match a with
        | Atom.Terminal _ => none
        | Atom.NonTerminal n =>
          if names.contains n then none else some (rn, n)) with
    | nil => simp
    | cons p t => simp

theorem findInexistent_eq (names : List String) :
    ∀ ast : List Rule, findInexistent names ast = (badRefs names ast).head? := by
  intro ast
  induction ast with
  | nil => rfl
  | cons r rest ih =>
    have hr : badRefs names (r :: rest) =
        (r.variants.flatMap (fun v => v.items.filterMap (fun a =>
          match a with
          | Atom.Terminal _ => none
          | Atom.NonTerminal n =>
            if names.contains n then none else some (r.name, n))))
          ++ badRefs names rest := rfl
    rw [findInexistent, findInexVariants_eq names r.name r.variants, hr]
    cases hfm : r.variants.flatMap (fun v => v.items.filterMap (fun a =>
        match a with
        | Atom.Terminal _ => none
        | Atom.NonTerminal n =>
          if names.contains n then none else some (r.name, n))) with
    | nil => simpa using ih
    | cons p t => simp

theorem badRefs_congr {names₁ names₂ : List String} (ast : List Rule)
    (h : ∀ n, names₁.contains n = names₂.contains n) :
    badRefs names₁ ast = badRefs names₂ ast := by
  unfold badRefs
  have hfun : ∀ rn : String,
      (fun (a : Atom) =>
        match a with
        | Atom.Terminal _ => none
        | Atom.NonTerminal n =>
          if names₁.contains n then none else some (rn, n)) =
      (fun (a : Atom) =>
        match a with
        | Atom.Terminal _ => none
        | Atom.NonTerminal n =>
          if names₂.contains n then none else some (rn, n)) := by
    intro rn
    funext a
    cases a with
    | Terminal c => rfl
    | NonTerminal n => simp only [h n]
  have hout : (fun (r : Rule) => r.variants.flatMap (fun v =>
      v.items.filterMap (fun a =>
        match a with
        | Atom.Terminal _ => none
        | Atom.NonTerminal n =>
          if names₁.contains n then none else some (r.name, n)))) =
      (fun (r : Rule) => r.variants.flatMap (fun v =>
      v.items.filterMap (fun a =>
        match a with
        | Atom.Terminal _ => none
        | Atom.NonTerminal n =>
          if names₂.contains n then none else some (r.name, n)))) := by
    funext r
    rw [hfun r.name]
  rw [hout]

/-- C7: a rule set without duplicate names but with a reference to an
undeclared non-terminal fails with `InexistentNonTerminals`, reporting
the first offending atom in scan order (rules, then variants, then
atoms) as the pair (defining rule's name, missing name). -/
theorem c7_first_undefined_nonterminal_reported :
    ∀ (ast : List Rule) (debug : Bool) (fuel : Nat) (p : String × String),
      (∀ m ∈ ast.map Rule.name, (ast.map Rule.name).count m ≤ 1) →
      (badRefList ast).head? = some p →
      build ast debug fuel = .err (.inexistentNonTerminals p.1 p.2) := by
  intro ast debug fuel p hnodup hbad
  have hcnt : ∀ m, (ast.map Rule.name).count m ≤ 1 := by
    intro m
    by_cases hm : m ∈ ast.map Rule.name
    · exact hnodup m hm
    · rw [List.count_eq_zero.mpr hm]
      omega
  have hdup : (dupScan ast [] []).2 = [] := by
    apply List.eq_nil_iff_forall_not_mem.mpr
    intro m hmem
    rw [dupScan_snd_mem] at hmem
    rcases hmem with h | h
    · simp at h
    · have h2 := hcnt m
      rw [if_neg (List.not_mem_nil m)] at h
      omega
  have hcont : ∀ n, (dupScan ast [] []).1.contains n = (ast.map Rule.name).contains n := by
    intro n
    have h1 : n ∈ (dupScan ast [] []).1 ↔ n ∈ ast.map Rule.name := by
      rw [dupScan_fst_mem]
      simp
    have h2 : (dupScan ast [] []).1.contains n = true ↔
        (ast.map Rule.name).contains n = true := by
      rw [List.elem_iff, List.elem_iff]
      exact h1
    revert h2
    cases (dupScan ast [] []).1.contains n <;>
      cases (ast.map Rule.name).contains n <;> simp
  have hfind : findInexistent (dupScan ast [] []).1 ast = some p := by
    rw [findInexistent_eq, badRefs_congr ast hcont]
    exact hbad
  rw [build, if_neg (fun hne => hne hdup), hfind]

theorem c7_first_undefined_nonterminal_reported_witness :
    build gInex false 5 = .err (.inexistentNonTerminals "a" "zz") :=
  c7_first_undefined_nonterminal_reported gInex false 5 ("a", "zz")
    (by decide) (by decide)

/-- C1 fails on the code: `<x> ::= "a" | "ab"` is accepted by `build`
and recursion-free, and the random draw picking the second variant
generates `"ab"` (`[97, 98]`), yet matching that very string returns the
single span `(0, 1)`, not `(0, 2)` — the greedy first variant `"a"` wins
and `match_rule` does not require the whole text to be consumed. -/
theorem c1_roundtrip_counterexample :
    build gAB false 10 = .ok eAB ∧
    genRandom eAB 10 "x" [1] = .ok [97, 98] ∧
    matchRule eAB 10 "x" ["x"] [97, 98] = .ok [(0, 1)] ∧
    [((0 : Nat), (1 : Nat))] ≠ [((0 : Nat), (2 : Nat))] := by
  decide

theorem isPrefixOf_self_append (c x : List Nat) : c.isPrefixOf (c ++ x) = true := by
  induction c with
  | nil => simp
  | cons a as ih => simp [List.isPrefixOf, ih]

theorem genItems_acc (eng : Engine) (recur : Rule → List Nat → GenRes) :
    ∀ (items : List Atom) (rng acc : List Nat),
      genItems eng recur items rng acc =
        match genItems eng recur items rng [] with
        | .ok s rng' => .ok (acc ++ s) rng'
        | .panicked => .panicked
        | .fuelOut => .fuelOut := by
  intro items
  induction items with
  | nil => intro rng acc; simp [genItems]
  | cons a rest ih =>
    intro rng acc
    cases a with
    | Terminal c =>
      rw [genItems, genItems, ih rng (acc ++ c), ih rng ([] ++ c)]
      cases genItems eng recur rest rng [] <;> simp
    | NonTerminal n =>
      cases hl : eng.lookup n with
      | none => simp [genItems, hl]
      | some r =>
        cases hg : recur r rng with
        | ok s₀ rng₂ =>
          simp only [genItems, hl, hg]
          rw [ih rng₂ (acc ++ s₀), ih rng₂ ([] ++ s₀)]
          cases genItems eng recur rest rng₂ [] <;> simp
        | panicked => simp [genItems, hl, hg]
        | fuelOut => simp [genItems, hl, hg]

theorem gen_sub_ok (eng : Engine) (recur : Rule → List Nat → GenRes) :
    ∀ (items : List Atom) (rng acc s rng' : List Nat) (n : String),
      genItems eng recur items rng acc = .ok s rng' →
      Atom.NonTerminal n ∈ items →
      ∃ r₀ rng₀ s₀ rng₁, eng.lookup n = some r₀ ∧ recur r₀ rng₀ = .ok s₀ rng₁ := by
  intro items
  induction items with
  | nil =>
    intro rng acc s rng' n _ hmem
    simp at hmem
  | cons a rest ih =>
    intro rng acc s rng' n h hmem
    cases a with
    | Terminal c =>
      rw [genItems] at h
      rcases List.mem_cons.mp hmem with heq | hmem'
      · cases heq
      · exact ih rng (acc ++ c) s rng' n h hmem'
    | NonTerminal m =>
      cases hl : eng.lookup m with
      | none => simp [genItems, hl] at h
      | some r =>
        cases hg : recur r rng with
        | ok s₀ rng₁ =>
          simp only [genItems, hl, hg] at h
          rcases List.mem_cons.mp hmem with heq | hmem'
          · injection heq with hnm
            subst hnm
            exact ⟨r, rng, s₀, rng₁, hl, hg⟩
          · exact ih rng₁ (acc ++ s₀) s rng' n h hmem'
        | panicked => simp [genItems, hl, hg] at h
        | fuelOut => simp [genItems, hl, hg] at h

theorem gen_descent (eng : Engine)
    (hSingle : ∀ r ∈ eng.tree, ∃ v, r.variants = [v]) :
    ∀ {a b : String}, Reach eng a b →
      ∀ (fuel : Nat) (ra : Rule) (rng s rng' : List Nat),
        eng.lookup a = some ra →
        genRandomVariant eng fuel ra rng = .ok s rng' →
        ∃ fuel' rb rng₂ s₂ rng₂', fuel' < fuel ∧ eng.lookup b = some rb ∧
          genRandomVariant eng fuel' rb rng₂ = .ok s₂ rng₂' := by
  intro a b hreach
  induction hreach with
  | step hlk hmem =>
    rename_i a' b' r
    intro fuel ra rng s rng' hla hg
    rw [hla] at hlk
    injection hlk with hra
    subst hra
    cases fuel with
    | zero => simp [genRandomVariant] at hg
    | succ f =>
      obtain ⟨v, hv⟩ := hSingle ra (lookup_mem hla)
      rw [genRandomVariant, hv] at hg
      simp [Nat.mod_one] at hg
      have hmem' : Atom.NonTerminal b' ∈ v.items := by
        rw [ruleRefs, hv] at hmem
        simp only [List.flatMap_cons, List.flatMap_nil, List.append_nil] at hmem
        rcases List.mem_filterMap.mp hmem with ⟨a₀, ha₀, hf⟩
        cases a₀ with
        | Terminal c => simp [atomRef] at hf
        | NonTerminal nn =>
          rw [atomRef] at hf
          injection hf with hf'
          subst hf'
          exact ha₀
      obtain ⟨r₀, rng₀, s₀, rng₁, hl₀, hg₀⟩ :=
        gen_sub_ok eng _ v.items rng.tail [] s rng' b' hg hmem'
      exact ⟨f, r₀, rng₀, s₀, rng₁, Nat.lt_succ_self f, hl₀, hg₀⟩
  | trans h1 h2 ih1 ih2 =>
    intro fuel ra rng s rng' hla hg
    obtain ⟨f1, rb, rng₂, s₂, rng₂', hf1, hlb, hg1⟩ := ih1 fuel ra rng s rng' hla hg
    obtain ⟨f2, rc, rng₃, s₃, rng₃', hf2, hlc, hg2⟩ := ih2 f1 rb rng₂ s₂ rng₂' hlb hg1
    exact ⟨f2, rc, rng₃, s₃, rng₃', Nat.lt_trans hf2 hf1, hlc, hg2⟩

theorem no_self_gen (eng : Engine)
    (hSingle : ∀ r ∈ eng.tree, ∃ v, r.variants = [v])
    {t : String} (hreach : Reach eng t t) :
    ∀ (fuel : Nat) (rt : Rule) (rng s rng' : List Nat),
      eng.lookup t = some rt →
      genRandomVariant eng fuel rt rng ≠ .ok s rng' := by
  intro fuel
  induction fuel using Nat.strong_induction_on with
  | _ fuel ih =>
    intro rt rng s rng' hlt hg
    obtain ⟨f', rb, rng₂, s₂, rng₂', hf', hlb, hg₂⟩ :=
      gen_descent eng hSingle hreach fuel rt rng s rng' hlt hg
    exact ih f' hf' rb rng₂ s₂ rng₂' hlb hg₂

theorem rt_items (eng : Engine) (t : String) (f : Nat)
    (hSingle : ∀ r ∈ eng.tree, ∃ v, r.variants = [v])
    (hIH : ∀ (rule : Rule) (rng rng' s : List Nat),
      eng.lookup rule.name = some rule →
      (rule.name = t ∨ Reach eng t rule.name) →
      genRandomVariant eng f rule rng = .ok s rng' →
      ∀ (rest : List Nat) (off : Nat),
        matchAgainst eng f rule [t] (s ++ rest) off =
          .ok s.length (if rule.name = t then [(off, off + s.length)] else [])) :
    ∀ (items : List Atom), (∀ n, Atom.NonTerminal n ∈ items → Reach eng t n) →
      ∀ (rngI out rngI' rest' : List Nat) (off' proc : Nat) (sub : List (Nat × Nat)),
        genItems eng (fun r g => genRandomVariant eng f r g) items rngI [] =
          .ok out rngI' →
        runItems (fun n d o =>
            match eng.lookup n with
            | none => MRes.panicked
            | some r => matchAgainst eng f r [t] d o) false items (out ++ rest')
          off' proc sub = .ok (proc + out.length) sub := by
  intro items
  induction items with
  | nil =>
    intro _ rngI out rngI' rest' off' proc sub hgI
    simp only [genItems] at hgI
    injection hgI with h1 h2
    subst h1
    simp [runItems]
  | cons a rest ihit =>
    intro hre rngI out rngI' rest' off' proc sub hgI
    cases a with
    | Terminal c =>
      simp only [genItems] at hgI
      rw [genItems_acc] at hgI
      cases hg2 : genItems eng (fun r g => genRandomVariant eng f r g) rest rngI [] with
      | ok s₂ rng₂ =>
        simp only [hg2] at hgI
        injection hgI with h1 h2
        have hout : out = c ++ s₂ := by
          rw [← h1]
          simp
        subst hout
        rw [List.append_assoc]
        have hpre : c.isPrefixOf (c ++ (s₂ ++ rest')) = true :=
          isPrefixOf_self_append c (s₂ ++ rest')
        rw [runItems, if_pos hpre, List.drop_left]
        have harr : proc + (c ++ s₂).length = (proc + c.length) + s₂.length := by
          simp [List.length_append]
          omega
        rw [harr]
        exact ihit (fun m hm => hre m (List.mem_cons_of_mem _ hm)) rngI s₂ rng₂
          rest' off' (proc + c.length) sub hg2
      | panicked => simp [hg2] at hgI
      | fuelOut => simp [hg2] at hgI
    | NonTerminal n =>
      cases hl : eng.lookup n with
      | none => simp [genItems, hl] at hgI
      | some r₀ =>
        cases hg1 : genRandomVariant eng f r₀ rngI with
        | ok s₀ rng₁ =>
          simp only [genItems, hl, hg1] at hgI
          rw [genItems_acc] at hgI
          cases hg2 : genItems eng (fun r g => genRandomVariant eng f r g) rest rng₁ [] with
          | ok s₂ rng₂ =>
            simp only [hg2] at hgI
            injection hgI with h1 h2
            have hout : out = s₀ ++ s₂ := by
              rw [← h1]
              simp
            subst hout
            have hr₀name : r₀.name = n := lookup_name hl
            have hreach_n : Reach eng t n := hre n (List.mem_cons_self _ _)
            by_cases hnt : n = t
            · subst hnt
              exact absurd hg1 (no_self_gen eng hSingle hreach_n f r₀ rngI s₀ rng₁ hl)
            · have hlk₀ : eng.lookup r₀.name = some r₀ := by
                rw [hr₀name]
                exact hl
              have hpath₀ : r₀.name = t ∨ Reach eng t r₀.name :=
                Or.inr (by rw [hr₀name]; exact hreach_n)
              have hmatch := hIH r₀ rngI rng₁ s₀ hlk₀ hpath₀ hg1 (s₂ ++ rest') (off' + proc)
              rw [if_neg (by rw [hr₀name]; exact hnt)] at hmatch
              rw [List.append_assoc]
              simp only [runItems, hl, hmatch, List.drop_left, List.append_nil]
              have harr : proc + (s₀ ++ s₂).length = (proc + s₀.length) + s₂.length := by
                simp [List.length_append]
                omega
              rw [harr]
              exact ihit (fun m hm => hre m (List.mem_cons_of_mem _ hm)) rng₁ s₂ rng₂
                rest' off' (proc + s₀.length) sub hg2
          | panicked => simp [hg2] at hgI
          | fuelOut => simp [hg2] at hgI
        | panicked => simp [genItems, hl, hg1] at hgI
        | fuelOut => simp [genItems, hl, hg1] at hgI

theorem rt_match_of_gen (eng : Engine) (hdbg : eng.debug = false)
    (hSingle : ∀ r ∈ eng.tree, ∃ v, r.variants = [v]) (t : String) :
    ∀ (fuel : Nat) (rule : Rule) (rng rng' s : List Nat),
      eng.lookup rule.name = some rule →
      (rule.name = t ∨ Reach eng t rule.name) →
      genRandomVariant eng fuel rule rng = .ok s rng' →
      ∀ (rest : List Nat) (off : Nat),
        matchAgainst eng fuel rule [t] (s ++ rest) off =
          .ok s.length (if rule.name = t then [(off, off + s.length)] else []) := by
  intro fuel
  induction fuel with
  | zero =>
    intro rule rng rng' s _ _ hg
    simp [genRandomVariant] at hg
  | succ f ihf =>
    intro rule rng rng' s hlk hpath hg rest off
    obtain ⟨v, hv⟩ := hSingle rule (lookup_mem hlk)
    rw [genRandomVariant, hv] at hg
    simp [Nat.mod_one] at hg
    have hrefs : ∀ n, Atom.NonTerminal n ∈ v.items → Reach eng t n := by
      intro n hn
      have hmem : n ∈ ruleRefs rule := by
        rw [ruleRefs, hv]
        simp only [List.flatMap_cons, List.flatMap_nil, List.append_nil]
        exact List.mem_filterMap.mpr ⟨Atom.NonTerminal n, hn, rfl⟩
      have hstep : Reach eng rule.name n := Reach.step hlk hmem
      rcases hpath with hEq | hR
      · rw [hEq] at hstep
        exact hstep
      · exact Reach.trans hR hstep
    have hrun := rt_items eng t f hSingle ihf v.items hrefs rng.tail s rng' rest off 0 [] hg
    rw [matchAgainst, hdbg, Bool.false_and, if_neg Bool.false_ne_true, hv]
    simp only [matchVariants, hrun]
    by_cases hnt : rule.name = t <;> simp [hnt]

/-- C1 as amended: for a grammar accepted by `build` (debug off) in
which every rule has exactly one variant, whenever `gen_random` returns
a string `s` for a rule `t` (for any injected randomness and any fuel),
`match_rule(t, [t], s)` succeeds with exactly the single span
`(0, length s)`.  (As originally stated — for all finite grammars — the
claim is refuted by `c1_roundtrip_counterexample`.) -/
theorem c1_roundtrip_single_variant_grammars :
    ∀ (ast : List Rule) (bfuel fuel : Nat) (eng : Engine) (t : String)
      (rng s : List Nat),
      build ast false bfuel = .ok eng →
      (∀ r ∈ ast, ∃ v, r.variants = [v]) →
      genRandom eng fuel t rng = .ok s →
      matchRule eng fuel t [t] s = .ok [(0, s.length)] := by
  intro ast bfuel fuel eng t rng s hb hsingle hgen
  have heng : eng = ⟨ast, false⟩ := build_ok_inv hb
  have hdbg : eng.debug = false := by rw [heng]
  have hsingle' : ∀ r ∈ eng.tree, ∃ v, r.variants = [v] := by
    rw [heng]
    exact hsingle
  cases hlt : eng.lookup t with
  | none =>
    unfold genRandom at hgen
    rw [hlt] at hgen
    simp at hgen
  | some top =>
    unfold genRandom at hgen
    rw [hlt] at hgen
    cases hgv : genRandomVariant eng fuel top rng with
    | ok s' rng' =>
      simp only [hgv] at hgen
      injection hgen with hs
      subst hs
      have htopname : top.name = t := lookup_name hlt
      have hlk : eng.lookup top.name = some top := by
        rw [htopname]
        exact hlt
      have hmatch := rt_match_of_gen eng hdbg hsingle' t fuel top rng rng' s' hlk
        (Or.inl htopname) hgv [] 0
      rw [List.append_nil, if_pos htopname] at hmatch
      have hw : findBadWatch eng [t] = none := by
        simp [findBadWatch, hlt]
      unfold matchRule
      rw [hlt, hw]
      simp only [hmatch]
      simp
    | panicked => simp [hgv] at hgen
    | fuelOut => simp [hgv] at hgen

theorem c1_roundtrip_single_variant_grammars_witness :
    build gSingle false 5 = .ok eSingle ∧
    genRandom eSingle 5 "x" [0] = .ok [97, 98] ∧
    matchRule eSingle 5 "x" ["x"] [97, 98] = .ok [(0, 2)] := by
  refine ⟨by decide, by decide, ?_⟩
  have hs : ∀ r ∈ gSingle, ∃ v, r.variants = [v] := by
    intro r hr
    rw [gSingle, List.mem_singleton] at hr
    subst hr
    exact ⟨_, rfl⟩
  have h := c1_roundtrip_single_variant_grammars gSingle 5 5 eSingle "x" [0] [97, 98]
    (by decide) hs (by decide)
  exact h.trans (by decide)

end ToyBnf
